import Mathlib

/-!
Verification of the qpc active-object engine specification against the
repository sources.

The repository sources under `src/` contain the Missile active object of the
game example (`missile.c`).  The framework core (HSM dispatcher, event pools,
event queues, publish/subscribe) is documented by the specification but its
source files are not part of this snapshot, so those components are modelled
from the specification text, as marked in the doc comments below.
-/

namespace QPC

/-! ## Missile active object (from `examples/arm-cm/game_efm32-slstk3401a/missile.c`) -/

/-- The three leaf states of the Missile state machine (all direct children of
`QHsm_top`). -/
inductive MState where
  | armed
  | flying
  | exploding
deriving DecidableEq, Repr

/-- The private data members of the `Missile` struct: `uint8_t x, y, exp_ctr`.
Values are bytes; writes that can wrap are taken modulo 256. -/
structure MissileVars where
  x : Nat
  y : Nat
  exp_ctr : Nat
deriving DecidableEq, Repr

/-- Signals relevant to the Missile state machine, plus the reserved
entry/exit/init pseudo-signals delivered by the dispatcher.  `OTHER n` stands
for any further application signal. -/
inductive Sig where
  | MISSILE_FIRE
  | TIME_TICK
  | HIT_WALL
  | DESTROYED_MINE
  | Q_ENTRY
  | Q_EXIT
  | Q_INIT
  | OTHER (n : Nat)
deriving DecidableEq, Repr

/-- An event as seen by the Missile handlers: a signal and, for
`MISSILE_FIRE` events (`ObjectPosEvt`), the `uint8_t` payload fields `x`, `y`. -/
structure Evt where
  sig : Sig
  px : Nat := 0
  py : Nat := 0
deriving DecidableEq, Repr

/-- Signals stamped on the `ObjectImageEvt` events the Missile posts to the
Tunnel (`MISSILE_IMG_SIG`, `EXPLOSION_SIG` from `game.h`). -/
inductive ImgSig where
  | MISSILE_IMG
  | EXPLOSION
deriving DecidableEq, Repr

/-- The `ObjectImageEvt` payload built by the Missile handlers:
`x`, `y` and `bmp` fields. -/
structure ObjectImageEvt where
  sig : ImgSig
  x : Nat
  y : Nat
  bmp : Nat
deriving DecidableEq, Repr

/-- An event posted by a Missile handler via `QACTIVE_POST`: either an
`ObjectImageEvt` to `AO_Tunnel` or the current event forwarded to `AO_Ship`. -/
inductive Posted where
  | toTunnel (e : ObjectImageEvt)
  | toShip (e : Evt)
deriving DecidableEq, Repr

/-- Game constants from `game.h` (not under `src/`), kept abstract:
`GAME_MISSILE_SPEED_X`, `GAME_TUNNEL_WIDTH`, `GAME_SPEED_X` and the bitmap
identifiers used by the Missile. -/
structure GameCfg where
  GAME_MISSILE_SPEED_X : Nat
  GAME_TUNNEL_WIDTH : Nat
  GAME_SPEED_X : Nat
  MISSILE_BMP : Nat
  EXPLOSION0_BMP : Nat
deriving DecidableEq, Repr

/-- Outcome of a state-handler call: `Q_HANDLED()`, `Q_TRAN(target)`, or
`Q_SUPER(&QHsm_top)` (every non-handled signal of the Missile delegates
directly to the top state). -/
inductive HStatus where
  | handled
  | tran (target : MState)
  | superTop
deriving DecidableEq, Repr

/-- Result of one state-handler invocation: the updated data members, the
returned status, and the events posted during the call. -/
structure HandlerResult where
  vars : MissileVars
  status : HStatus
  posts : List Posted
deriving DecidableEq, Repr

/-- `Missile_armed` (missile.c lines 78–94): on `MISSILE_FIRE` store the
event's position and `Q_TRAN(&Missile_flying)`; everything else goes to
`Q_SUPER(&QHsm_top)`. -/
def Missile_armed (_cfg : GameCfg) (me : MissileVars) (e : Evt) : HandlerResult :=
  match e.sig with
  | Sig.MISSILE_FIRE =>
      { vars := { me with x := e.px, y := e.py }
        status := HStatus.tran MState.flying
        posts := [] }
  | _ => { vars := me, status := HStatus.superTop, posts := [] }

/-- `Missile_flying` (missile.c lines 96–136): `TIME_TICK` advances `x` by
`GAME_MISSILE_SPEED_X` and posts a `MISSILE_IMG` image event while
`x + GAME_MISSILE_SPEED_X < GAME_TUNNEL_WIDTH`, else transitions to `armed`;
`HIT_WALL` transitions to `exploding`; `DESTROYED_MINE` forwards the event to
the Ship and transitions to `armed`. -/
def Missile_flying (cfg : GameCfg) (me : MissileVars) (e : Evt) : HandlerResult :=
  match e.sig with
  | Sig.TIME_TICK =>
      if me.x + cfg.GAME_MISSILE_SPEED_X < cfg.GAME_TUNNEL_WIDTH then
        let x2 := (me.x + cfg.GAME_MISSILE_SPEED_X) % 256
        { vars := { me with x := x2 }
          status := HStatus.handled
          posts := [Posted.toTunnel
            { sig := ImgSig.MISSILE_IMG, x := x2, y := me.y, bmp := cfg.MISSILE_BMP }] }
      else
        { vars := me, status := HStatus.tran MState.armed, posts := [] }
  | Sig.HIT_WALL =>
      { vars := me, status := HStatus.tran MState.exploding, posts := [] }
  | Sig.DESTROYED_MINE =>
      { vars := me, status := HStatus.tran MState.armed, posts := [Posted.toShip e] }
  | _ => { vars := me, status := HStatus.superTop, posts := [] }

/-- `Missile_exploding` (missile.c lines 138–176): `Q_ENTRY_SIG` zeroes
`exp_ctr`; `TIME_TICK` under the guard `(x >= GAME_SPEED_X) && (exp_ctr < 15)`
increments `exp_ctr`, moves `x` back by `GAME_SPEED_X` and posts an
`EXPLOSION` image event, else transitions to `armed`.  The posted `y` field
models `(int8_t)((int)me->y - 4U)` as its byte value. -/
def Missile_exploding (cfg : GameCfg) (me : MissileVars) (e : Evt) : HandlerResult :=
  match e.sig with
  | Sig.Q_ENTRY =>
      { vars := { me with exp_ctr := 0 }, status := HStatus.handled, posts := [] }
  | Sig.TIME_TICK =>
      if cfg.GAME_SPEED_X ≤ me.x ∧ me.exp_ctr < 15 then
        let ctr2 := (me.exp_ctr + 1) % 256
        let x2 := me.x - cfg.GAME_SPEED_X
        { vars := { me with exp_ctr := ctr2, x := x2 }
          status := HStatus.handled
          posts := [Posted.toTunnel
            { sig := ImgSig.EXPLOSION
              x := (x2 + 3) % 256
              y := (me.y + 252) % 256
              bmp := cfg.EXPLOSION0_BMP + ctr2 / 4 }] }
      else
        { vars := me, status := HStatus.tran MState.armed, posts := [] }
  | _ => { vars := me, status := HStatus.superTop, posts := [] }

/-- `Missile_initial` (missile.c lines 60–76): subscribes the Missile to
`TIME_TICK_SIG` and takes the initial transition to `armed`.  (The remaining
statements are QS tracing dictionaries, out of the engine's scope.) -/
def Missile_initial : List Sig × MState :=
  ([Sig.TIME_TICK], MState.armed)

/-- The state-handler table of the Missile state machine. -/
def missileHandler (cfg : GameCfg) : MState → MissileVars → Evt → HandlerResult
  | MState.armed => Missile_armed cfg
  | MState.flying => Missile_flying cfg
  | MState.exploding => Missile_exploding cfg

/-- One run-to-completion dispatch of an event to the Missile state machine.
All three states are direct children of `QHsm_top`, and none of their handlers
takes a transition on the entry/exit/init pseudo-signals, so a `Q_TRAN`
executes: exit of the source (deliver `Q_EXIT_SIG`), entry of the target
(deliver `Q_ENTRY_SIG`), then the target's initial transition signal
(`Q_INIT_SIG`, taken by no Missile state).  `superTop` means the event reached
`QHsm_top`, which silently ignores it. -/
def missileDispatch (cfg : GameCfg) (st : MState) (me : MissileVars) (e : Evt) :
    MState × MissileVars × List Posted :=
  let r := missileHandler cfg st me e
  match r.status with
  | HStatus.handled => (st, r.vars, r.posts)
  | HStatus.superTop => (st, r.vars, r.posts)
  | HStatus.tran t =>
      let rExit := missileHandler cfg st r.vars { sig := Sig.Q_EXIT }
      let rEntry := missileHandler cfg t rExit.vars { sig := Sig.Q_ENTRY }
      let rInit := missileHandler cfg t rEntry.vars { sig := Sig.Q_INIT }
      (t, rInit.vars, r.posts ++ rExit.posts ++ rEntry.posts ++ rInit.posts)

/-- The observation recorded for one `TIME_TICK`: the state after the tick,
the `x` position after the tick, and how many events were posted during it. -/
def tickObs (cfg : GameCfg) (st : MState) (me : MissileVars) :
    (MState × MissileVars) × (MState × Nat × Nat) :=
  let r := missileDispatch cfg st me { sig := Sig.TIME_TICK }
  ((r.1, r.2.1), (r.1, r.2.1.x, r.2.2.length))

/-- Feed `n` consecutive `TIME_TICK` events to the Missile and record, for
each tick, the state after it, the `x` position after it, and the number of
posted events. -/
def tickRun (cfg : GameCfg) : Nat → MState → MissileVars → List (MState × Nat × Nat)
  | 0, _, _ => []
  | n + 1, st, me =>
      let r := tickObs cfg st me
      r.2 :: tickRun cfg n r.1.1 r.1.2

/-! ## HSM dispatcher transition sequence

Modelled from the spec: the hierarchical state-machine dispatcher (§4.3) whose
source (`qep_hsm.c`) is not under `src/`.  States are nodes of a single-rooted
tree given by a parent map (`none` for the root); a transition computes the
least common ancestor of source and target by walking both ancestor chains,
exits from the source up to (but not including) the LCA innermost first, and
enters from the LCA down to the target outermost first; a self-transition
executes the source's exit then its entry. -/

/-- Modelled from the spec: the ancestor chain of a state, the state first and
the root last, produced by following parent links (`fuel` bounds the walk, as
the static tree has finite depth). -/
def ancWalk (parent : Nat → Option Nat) : Nat → Nat → List Nat
  | 0, s => [s]
  | fuel + 1, s =>
      match parent s with
      | none => [s]
      | some p => s :: ancWalk parent fuel p

/-- Modelled from the spec: the least common ancestor of two states is the
first node of the source's ancestor chain that also occurs in the target's
ancestor chain. -/
def lcaOf (chainS chainT : List Nat) : Option Nat :=
  chainS.find? (fun x => chainT.contains x)

/-- Modelled from the spec: exit actions run for every state from the source
up to but not including the LCA, innermost first. -/
def exitSeq (chainS : List Nat) (lca : Nat) : List Nat :=
  chainS.takeWhile (fun x => x != lca)

/-- Modelled from the spec: entry actions run from the LCA down to the target,
outermost first — the downward path is the target's ancestor chain up to the
LCA, replayed in reverse. -/
def entrySeq (chainT : List Nat) (lca : Nat) : List Nat :=
  (chainT.takeWhile (fun x => x != lca)).reverse

/-- An entry or exit action executed on a state during a transition. -/
inductive HAct where
  | exitA (s : Nat)
  | entryA (s : Nat)
deriving DecidableEq, Repr

/-- Modelled from the spec: the full list of exit/entry actions executed for a
transition from `src` to `tgt`.  A self-transition (target equals source)
executes the source's exit then its entry; otherwise exits up to the LCA are
followed by entries down from it.  An empty result for distinct states can
only arise from an ill-formed tree with no common ancestor. -/
def transSeq (parent : Nat → Option Nat) (fuel : Nat) (src tgt : Nat) : List HAct :=
  if src = tgt then
    [HAct.exitA src, HAct.entryA src]
  else
    match lcaOf (ancWalk parent fuel src) (ancWalk parent fuel tgt) with
    | none => []
    | some l =>
        (exitSeq (ancWalk parent fuel src) l).map HAct.exitA ++
        (entrySeq (ancWalk parent fuel tgt) l).map HAct.entryA

/-- The state an action acts on. -/
def HAct.state : HAct → Nat
  | HAct.exitA s => s
  | HAct.entryA s => s

/-! ## Event pools and reference counting

Modelled from the spec: the event & pool manager (§4.1) whose source
(`qf_dyn.c`/`qf_mem.c`) is not under `src/`.  A pool is a fixed set of
equally-sized blocks with a free list; `allocate` pops a free block and sets
its reference count to 1, `retain` increments the count of a live event,
`release` decrements it and returns the block to the free list when the count
reaches zero. -/

/-- Modelled from the spec: one event pool — configured block size and block
count, the free list of block indices, and the per-block reference count. -/
structure Pool where
  blockSize : Nat
  blockCount : Nat
  freeList : List Nat
  refCt : Nat → Nat

/-- Modelled from the spec: a freshly registered pool has every block on its
free list and every reference count zero. -/
def initPool (sz cnt : Nat) : Pool :=
  { blockSize := sz, blockCount := cnt, freeList := List.range cnt
    refCt := fun _ => 0 }

/-- Modelled from the spec: `allocate` pops a free block (O(1)) and sets its
reference count to 1; an exhausted pool is a fatal condition, modelled as
leaving the state unchanged. -/
def poolAlloc (P : Pool) : Pool :=
  match P.freeList with
  | [] => P
  | b :: rest =>
      { P with freeList := rest
               refCt := fun x => if x = b then 1 else P.refCt x }

/-- Modelled from the spec: `retain` increments the reference count of a live
event (count 0 means the block is back on the free list and no event exists to
retain, so nothing happens). -/
def poolRetain (P : Pool) (b : Nat) : Pool :=
  if 0 < P.refCt b then
    { P with refCt := fun x => if x = b then P.refCt b + 1 else P.refCt x }
  else P

/-- Modelled from the spec: `release` decrements the reference count and, on
reaching zero, returns the block to its pool's free list; releasing a block
whose count is already 0 is outside the lifecycle and changes nothing. -/
def poolRelease (P : Pool) (b : Nat) : Pool :=
  if P.refCt b = 0 then P
  else if P.refCt b = 1 then
    { P with freeList := b :: P.freeList
             refCt := fun x => if x = b then 0 else P.refCt x }
  else
    { P with refCt := fun x => if x = b then P.refCt b - 1 else P.refCt x }

/-- The per-pool invariant of the spec: the free list holds distinct valid
blocks, never more than the configured block count, and a block's reference
count is 0 exactly when the block sits on the free list. -/
def PoolInv (P : Pool) : Prop :=
  P.freeList.Nodup ∧
  (∀ b ∈ P.freeList, b < P.blockCount) ∧
  P.freeList.length ≤ P.blockCount ∧
  (∀ b, P.refCt b = 0 ↔ (b < P.blockCount → b ∈ P.freeList)) ∧
  (∀ b, P.blockCount ≤ b → P.refCt b = 0)

/-- Replace the `n`-th element of a list by `f` of it. -/
def modifyNth (f : α → α) : Nat → List α → List α
  | _, [] => []
  | 0, a :: l => f a :: l
  | n + 1, a :: l => a :: modifyNth f n l

/-- An operation on the event-pool subsystem: allocate an event of a given
payload size, retain an event (identified by its pool and block), or release
one. -/
inductive POp where
  | alloc (size : Nat)
  | retain (p b : Nat)
  | release (p b : Nat)
deriving DecidableEq, Repr

/-- Modelled from the spec: allocation by size picks the smallest-block pool
whose block size is at least the requested size (pools are registered in
increasing block-size order, so the first fit is the smallest). -/
def sysStep (sys : List Pool) : POp → List Pool
  | POp.alloc size => modifyNth poolAlloc (sys.findIdx fun P => size ≤ P.blockSize) sys
  | POp.retain p b => modifyNth (fun P => poolRetain P b) p sys
  | POp.release p b => modifyNth (fun P => poolRelease P b) p sys

/-- Run a sequence of pool operations from a given pool configuration. -/
def sysRun (sys : List Pool) (ops : List POp) : List Pool :=
  ops.foldl sysStep sys

/-- Register the configured pools: a list of (block size, block count) pairs. -/
def initSys (cfg : List (Nat × Nat)) : List Pool :=
  cfg.map fun c => initPool c.1 c.2

/-! ## Event queues and the overflow policy

Modelled from the spec: the event queue (§4.2) and the queue-overflow policy
(§7) whose source (`qf_qeq.c`/`qf_actq.c`) is not under `src/`.  A queue is a
bounded FIFO of event references; `try_post` inserts at the tail and retains
the event when there is capacity, and on overflow either drops the event
(releasing its reference) or invokes the designated failure hook, by policy. -/

/-- Modelled from the spec: a bounded FIFO event queue owned by one active
object, holding references (block ids) to events; the entry count never
exceeds the capacity fixed at construction. -/
structure EQueue where
  cap : Nat
  items : List Nat
deriving DecidableEq, Repr

/-- The configurable handling of a queue overflow: drop the event or treat it
as fatal. -/
inductive OverflowPolicy where
  | drop
  | fatal
deriving DecidableEq, Repr

/-- The outcome of a `try_post`: the queue and pool afterwards, how many times
the designated failure hook fired, and whether the event was enqueued. -/
structure PostResult where
  queue : EQueue
  pool : Pool
  hookCalls : Nat
  ok : Bool

/-- Modelled from the spec: non-blocking `try_post`.  With capacity left it
inserts the event reference at the tail and increments the event's reference
count; on a full queue the `drop` policy leaves the queue unchanged and
releases the dropped event's reference once, while the `fatal` policy invokes
the designated failure hook once and touches neither queue nor pool. -/
def tryPost (pol : OverflowPolicy) (q : EQueue) (P : Pool) (b : Nat) : PostResult :=
  if q.items.length < q.cap then
    { queue := { q with items := q.items ++ [b] }
      pool := poolRetain P b
      hookCalls := 0
      ok := true }
  else
    match pol with
    | OverflowPolicy.drop =>
        { queue := q, pool := poolRelease P b, hookCalls := 0, ok := false }
    | OverflowPolicy.fatal =>
        { queue := q, pool := P, hookCalls := 1, ok := false }

/-! ## Publish/subscribe reference-count round trip

Modelled from the spec: `publish` (§4.5, source `qf_ps.c` not under `src/`)
increments the event's reference count once per subscriber, in priority order,
and after all subscribers are served releases the publisher's own reference;
each subscriber's run loop releases its reference after dispatching. -/

/-- Modelled from the spec: the effect of `publish` on the event's pool —
one `retain` per subscriber followed by the release of the publisher's own
reference.  With no subscribers the pool-allocated event is recycled
immediately by that final release. -/
def publishEvt (P : Pool) (b : Nat) (nSub : Nat) : Pool :=
  poolRelease ((poolRetain · b)^[nSub] P) b

/-- `k` consumers have finished with event `b` and released their references. -/
def releaseN (P : Pool) (b : Nat) (k : Nat) : Pool :=
  (poolRelease · b)^[k] P

/-! ## Concrete instances used to exercise the definitions -/

/-- A concrete game configuration used in the concrete checks below. -/
def cexCfg : GameCfg :=
  { GAME_MISSILE_SPEED_X := 1, GAME_TUNNEL_WIDTH := 100, GAME_SPEED_X := 1
    MISSILE_BMP := 7, EXPLOSION0_BMP := 9 }

/-- A concrete Missile data-member valuation used in the concrete checks. -/
def cexVars : MissileVars := { x := 5, y := 2, exp_ctr := 3 }

/-- A concrete five-state tree: `3 → 2 → 1 → 0` (root) and `4 → 0`. -/
def cexParent : Nat → Option Nat
  | 1 => some 0
  | 2 => some 1
  | 3 => some 2
  | 4 => some 0
  | _ => none

/-! ## Lemmas about the Missile state machine -/

/-- A `TIME_TICK` in `flying` whose guard holds advances `x` and posts exactly
one `MISSILE_IMG` image event. -/
theorem flying_tick_pos (cfg : GameCfg) (v : MissileVars)
    (hg : v.x + cfg.GAME_MISSILE_SPEED_X < cfg.GAME_TUNNEL_WIDTH)
    (h256 : v.x + cfg.GAME_MISSILE_SPEED_X < 256) :
    missileDispatch cfg MState.flying v { sig := Sig.TIME_TICK } =
      (MState.flying, { v with x := v.x + cfg.GAME_MISSILE_SPEED_X },
        [Posted.toTunnel
          { sig := ImgSig.MISSILE_IMG, x := v.x + cfg.GAME_MISSILE_SPEED_X
            y := v.y, bmp := cfg.MISSILE_BMP }]) := by
  simp [missileDispatch, missileHandler, Missile_flying, hg, Nat.mod_eq_of_lt h256]

/-- A `TIME_TICK` in `flying` whose guard fails transitions back to `armed`
without changing the data members or posting anything. -/
theorem flying_tick_neg (cfg : GameCfg) (v : MissileVars)
    (hg : ¬ (v.x + cfg.GAME_MISSILE_SPEED_X < cfg.GAME_TUNNEL_WIDTH)) :
    missileDispatch cfg MState.flying v { sig := Sig.TIME_TICK } =
      (MState.armed, v, []) := by
  simp [missileDispatch, missileHandler, Missile_flying, Missile_armed, hg]

/-- A `TIME_TICK` in `exploding` whose guard holds increments `exp_ctr`, moves
`x` back and posts exactly one `EXPLOSION` image event. -/
theorem exploding_tick_pos (cfg : GameCfg) (v : MissileVars)
    (hx : cfg.GAME_SPEED_X ≤ v.x) (hc : v.exp_ctr < 15) :
    missileDispatch cfg MState.exploding v { sig := Sig.TIME_TICK } =
      (MState.exploding,
       { v with exp_ctr := v.exp_ctr + 1, x := v.x - cfg.GAME_SPEED_X },
       [Posted.toTunnel
         { sig := ImgSig.EXPLOSION, x := (v.x - cfg.GAME_SPEED_X + 3) % 256
           y := (v.y + 252) % 256
           bmp := cfg.EXPLOSION0_BMP + (v.exp_ctr + 1) / 4 }]) := by
  have h256 : v.exp_ctr + 1 < 256 := by omega
  simp [missileDispatch, missileHandler, Missile_exploding, hx, hc,
    Nat.mod_eq_of_lt h256]

/-- A `TIME_TICK` in `exploding` whose guard fails transitions back to `armed`
without changing the data members or posting anything. -/
theorem exploding_tick_neg (cfg : GameCfg) (v : MissileVars)
    (hg : ¬ (cfg.GAME_SPEED_X ≤ v.x ∧ v.exp_ctr < 15)) :
    missileDispatch cfg MState.exploding v { sig := Sig.TIME_TICK } =
      (MState.armed, v, []) := by
  simp only [missileDispatch, missileHandler, Missile_exploding, Missile_armed]
  simp only [if_neg hg]
  exact rfl

/-! ## Claim theorems about the Missile state machine -/

/-- C1: started in `armed` and fired into `flying` by a `MISSILE_FIRE` event
carrying an initial position `(px, py)`, a scripted sequence of 5 `TIME_TICK`
signals in which the boundary condition (`x + GAME_MISSILE_SPEED_X` no longer
below `GAME_TUNNEL_WIDTH`) first holds on the 5th tick produces exactly 4
position-update actions — each advancing `x` by `GAME_MISSILE_SPEED_X` and
posting exactly one image event — and exactly 1 transition back to `armed`,
occurring on the 5th tick with no post. -/
theorem missile_five_tick_scenario (cfg : GameCfg) (v : MissileVars) (px py : Nat)
    (hw : cfg.GAME_TUNNEL_WIDTH ≤ 256)
    (h1 : px + 1 * cfg.GAME_MISSILE_SPEED_X < cfg.GAME_TUNNEL_WIDTH)
    (h2 : px + 2 * cfg.GAME_MISSILE_SPEED_X < cfg.GAME_TUNNEL_WIDTH)
    (h3 : px + 3 * cfg.GAME_MISSILE_SPEED_X < cfg.GAME_TUNNEL_WIDTH)
    (h4 : px + 4 * cfg.GAME_MISSILE_SPEED_X < cfg.GAME_TUNNEL_WIDTH)
    (h5 : ¬ (px + 5 * cfg.GAME_MISSILE_SPEED_X < cfg.GAME_TUNNEL_WIDTH)) :
    (missileDispatch cfg MState.armed v
        { sig := Sig.MISSILE_FIRE, px := px, py := py }).1 = MState.flying ∧
    tickRun cfg 5 MState.flying
      (missileDispatch cfg MState.armed v
        { sig := Sig.MISSILE_FIRE, px := px, py := py }).2.1 =
      [(MState.flying, px + 1 * cfg.GAME_MISSILE_SPEED_X, 1),
       (MState.flying, px + 2 * cfg.GAME_MISSILE_SPEED_X, 1),
       (MState.flying, px + 3 * cfg.GAME_MISSILE_SPEED_X, 1),
       (MState.flying, px + 4 * cfg.GAME_MISSILE_SPEED_X, 1),
       (MState.armed, px + 4 * cfg.GAME_MISSILE_SPEED_X, 0)] := by
  refine ⟨rfl, ?_⟩
  show tickRun cfg 5 MState.flying { v with x := px, y := py } = _
  have s1 := flying_tick_pos cfg { v with x := px, y := py }
    (by show px + cfg.GAME_MISSILE_SPEED_X < cfg.GAME_TUNNEL_WIDTH; omega)
    (by show px + cfg.GAME_MISSILE_SPEED_X < 256; omega)
  have s2 := flying_tick_pos cfg
    { v with x := px + cfg.GAME_MISSILE_SPEED_X, y := py }
    (by show px + cfg.GAME_MISSILE_SPEED_X + cfg.GAME_MISSILE_SPEED_X <
          cfg.GAME_TUNNEL_WIDTH; omega)
    (by show px + cfg.GAME_MISSILE_SPEED_X + cfg.GAME_MISSILE_SPEED_X < 256; omega)
  have s3 := flying_tick_pos cfg
    { v with x := px + cfg.GAME_MISSILE_SPEED_X + cfg.GAME_MISSILE_SPEED_X
             y := py }
    (by show px + cfg.GAME_MISSILE_SPEED_X + cfg.GAME_MISSILE_SPEED_X +
          cfg.GAME_MISSILE_SPEED_X < cfg.GAME_TUNNEL_WIDTH; omega)
    (by show px + cfg.GAME_MISSILE_SPEED_X + cfg.GAME_MISSILE_SPEED_X +
          cfg.GAME_MISSILE_SPEED_X < 256; omega)
  have s4 := flying_tick_pos cfg
    { v with x := px + cfg.GAME_MISSILE_SPEED_X + cfg.GAME_MISSILE_SPEED_X +
        cfg.GAME_MISSILE_SPEED_X
             y := py }
    (by show px + cfg.GAME_MISSILE_SPEED_X + cfg.GAME_MISSILE_SPEED_X +
          cfg.GAME_MISSILE_SPEED_X + cfg.GAME_MISSILE_SPEED_X <
          cfg.GAME_TUNNEL_WIDTH; omega)
    (by show px + cfg.GAME_MISSILE_SPEED_X + cfg.GAME_MISSILE_SPEED_X +
          cfg.GAME_MISSILE_SPEED_X + cfg.GAME_MISSILE_SPEED_X < 256; omega)
  have s5 := flying_tick_neg cfg
    { v with x := px + cfg.GAME_MISSILE_SPEED_X + cfg.GAME_MISSILE_SPEED_X +
        cfg.GAME_MISSILE_SPEED_X + cfg.GAME_MISSILE_SPEED_X
             y := py }
    (by show ¬ (px + cfg.GAME_MISSILE_SPEED_X + cfg.GAME_MISSILE_SPEED_X +
          cfg.GAME_MISSILE_SPEED_X + cfg.GAME_MISSILE_SPEED_X +
          cfg.GAME_MISSILE_SPEED_X < cfg.GAME_TUNNEL_WIDTH); omega)
  simp only [tickRun, tickObs, s1, s2, s3, s4, s5]
  simp only [List.cons.injEq, Prod.mk.injEq, List.length_cons, List.length_nil,
    and_true, true_and]
  refine ⟨by omega, by omega, by omega, by omega, by omega⟩

/-- Witness for C1 at the concrete configuration `cexCfg`, fired at position
`(95, 10)`: the boundary first holds on the 5th tick. -/
theorem missile_five_tick_scenario_witness :
    (missileDispatch cexCfg MState.armed cexVars
        { sig := Sig.MISSILE_FIRE, px := 95, py := 10 }).1 = MState.flying ∧
    tickRun cexCfg 5 MState.flying
      (missileDispatch cexCfg MState.armed cexVars
        { sig := Sig.MISSILE_FIRE, px := 95, py := 10 }).2.1 =
      [(MState.flying, 96, 1), (MState.flying, 97, 1), (MState.flying, 98, 1),
       (MState.flying, 99, 1), (MState.armed, 99, 0)] := by
  have h := missile_five_tick_scenario cexCfg cexVars 95 10
    (by decide) (by decide) (by decide) (by decide) (by decide) (by decide)
  simpa using h

/-- C2, counterexample: in `exploding` with `x = 5`, `exp_ctr = 3` under
`cexCfg`, a `TIME_TICK` leaves `exp_ctr = 4` — the explosion counter is
incremented, not decremented. -/
theorem exploding_tick_increments_cex :
    (missileDispatch cexCfg MState.exploding cexVars
        { sig := Sig.TIME_TICK }).2.1.exp_ctr = cexVars.exp_ctr + 1 ∧
    ¬ (missileDispatch cexCfg MState.exploding cexVars
        { sig := Sig.TIME_TICK }).2.1.exp_ctr < cexVars.exp_ctr := by
  decide

/-- C2, amended: in `exploding`, a `TIME_TICK` under the guard
`x ≥ GAME_SPEED_X ∧ exp_ctr < 15` increments the explosion counter (and moves
`x` back by `GAME_SPEED_X`, posting one `EXPLOSION` image event); once the
guard fails, a `TIME_TICK` transitions back to `armed`. -/
theorem exploding_tick_behavior (cfg : GameCfg) (v : MissileVars) :
    (cfg.GAME_SPEED_X ≤ v.x ∧ v.exp_ctr < 15 →
      missileDispatch cfg MState.exploding v { sig := Sig.TIME_TICK } =
        (MState.exploding,
         { v with exp_ctr := v.exp_ctr + 1, x := v.x - cfg.GAME_SPEED_X },
         [Posted.toTunnel
           { sig := ImgSig.EXPLOSION, x := (v.x - cfg.GAME_SPEED_X + 3) % 256
             y := (v.y + 252) % 256
             bmp := cfg.EXPLOSION0_BMP + (v.exp_ctr + 1) / 4 }])) ∧
    (¬ (cfg.GAME_SPEED_X ≤ v.x ∧ v.exp_ctr < 15) →
      missileDispatch cfg MState.exploding v { sig := Sig.TIME_TICK } =
        (MState.armed, v, [])) :=
  ⟨fun h => exploding_tick_pos cfg v h.1 h.2, exploding_tick_neg cfg v⟩

/-- Witness for C2's amended theorem: both branches exercised at concrete
inputs under `cexCfg`. -/
theorem exploding_tick_behavior_witness :
    missileDispatch cexCfg MState.exploding cexVars { sig := Sig.TIME_TICK } =
      (MState.exploding, { x := 4, y := 2, exp_ctr := 4 },
       [Posted.toTunnel { sig := ImgSig.EXPLOSION, x := 7, y := 254, bmp := 10 }]) ∧
    missileDispatch cexCfg MState.exploding { x := 0, y := 2, exp_ctr := 3 }
        { sig := Sig.TIME_TICK } =
      (MState.armed, { x := 0, y := 2, exp_ctr := 3 }, []) := by
  refine ⟨?_, ?_⟩
  · have h := (exploding_tick_behavior cexCfg cexVars).1 (by decide)
    simpa using h
  · have h := (exploding_tick_behavior cexCfg { x := 0, y := 2, exp_ctr := 3 }).2
      (by decide)
    simpa using h

/-- C8: in `armed`, a `MISSILE_FIRE` event stores the event's position into
`x`, `y` and transitions to `flying`; in `flying`, a `HIT_WALL` event
transitions to `exploding` (whose entry action zeroes `exp_ctr`). -/
theorem missile_fire_and_hit_wall (cfg : GameCfg) (v : MissileVars) (px py : Nat) :
    missileDispatch cfg MState.armed v { sig := Sig.MISSILE_FIRE, px := px, py := py } =
      (MState.flying, { v with x := px, y := py }, []) ∧
    missileDispatch cfg MState.flying v { sig := Sig.HIT_WALL } =
      (MState.exploding, { v with exp_ctr := 0 }, []) :=
  ⟨rfl, rfl⟩

/-- C9: the Missile's initial transition subscribes it to `TIME_TICK_SIG`,
yet in `armed` every event whose signal is not `MISSILE_FIRE` (including
`TIME_TICK`) is delegated to the top state and ignored: the data members are
unchanged, nothing is posted, and no transition occurs. -/
theorem armed_ignores_non_fire (cfg : GameCfg) (v : MissileVars) (e : Evt)
    (h : e.sig ≠ Sig.MISSILE_FIRE) :
    Sig.TIME_TICK ∈ Missile_initial.1 ∧
    missileDispatch cfg MState.armed v e = (MState.armed, v, []) := by
  refine ⟨by simp [Missile_initial], ?_⟩
  obtain ⟨s, px, py⟩ := e
  cases s <;> simp_all [missileDispatch, missileHandler, Missile_armed]

/-- Witness for C9: a `TIME_TICK` event in `armed` under `cexCfg`. -/
theorem armed_ignores_non_fire_witness :
    Sig.TIME_TICK ∈ Missile_initial.1 ∧
    missileDispatch cexCfg MState.armed cexVars { sig := Sig.TIME_TICK } =
      (MState.armed, cexVars, []) :=
  armed_ignores_non_fire cexCfg cexVars { sig := Sig.TIME_TICK } (by decide)

/-- C10: the entry action of `exploding` zeroes `exp_ctr`; a `TIME_TICK` in
`exploding` keeps `exp_ctr ≤ 15` (the counter is incremented only under the
guard `exp_ctr < 15`, jointly with `x ≥ GAME_SPEED_X`), and whenever that
guard fails on a `TIME_TICK` the machine transitions to `armed`. -/
theorem exploding_ctr_bounded (cfg : GameCfg) (v : MissileVars) :
    (Missile_exploding cfg v { sig := Sig.Q_ENTRY }).vars.exp_ctr = 0 ∧
    (v.exp_ctr ≤ 15 →
      (missileDispatch cfg MState.exploding v
        { sig := Sig.TIME_TICK }).2.1.exp_ctr ≤ 15) ∧
    (¬ (cfg.GAME_SPEED_X ≤ v.x ∧ v.exp_ctr < 15) →
      (missileDispatch cfg MState.exploding v
        { sig := Sig.TIME_TICK }).1 = MState.armed) := by
  refine ⟨rfl, ?_, ?_⟩
  · intro hle
    by_cases hg : cfg.GAME_SPEED_X ≤ v.x ∧ v.exp_ctr < 15
    · rw [exploding_tick_pos cfg v hg.1 hg.2]
      simpa using by omega
    · rw [exploding_tick_neg cfg v hg]
      simpa using hle
  · intro hg
    rw [exploding_tick_neg cfg v hg]

/-- Witness for C10: concrete checks of the bound and of the
guard-failure transition under `cexCfg`. -/
theorem exploding_ctr_bounded_witness :
    (missileDispatch cexCfg MState.exploding cexVars
      { sig := Sig.TIME_TICK }).2.1.exp_ctr ≤ 15 ∧
    (missileDispatch cexCfg MState.exploding { x := 0, y := 2, exp_ctr := 3 }
      { sig := Sig.TIME_TICK }).1 = MState.armed :=
  ⟨(exploding_ctr_bounded cexCfg cexVars).2.1 (by decide),
   (exploding_ctr_bounded cexCfg { x := 0, y := 2, exp_ctr := 3 }).2.2 (by decide)⟩

/-! ## Claim theorems about the HSM transition sequence -/

/-- C4, counterexample: in the concrete tree `3 → 2 → 1 → 0` (root), `4 → 0`,
the transition from the depth-3 state `3` to the depth-1 state `4` exits
`[3, 2, 1]` — three states, not the two `[A, A.parent]` the claim states. -/
theorem deep_transition_exit_cex :
    transSeq cexParent 4 3 4 =
      [HAct.exitA 3, HAct.exitA 2, HAct.exitA 1, HAct.entryA 4] ∧
    transSeq cexParent 4 3 4 ≠ [HAct.exitA 3, HAct.exitA 2, HAct.entryA 4] := by
  decide

/-- C4, amended: for a transition from a source `A` at depth 3 to a target
`B` at depth 1 whose only shared ancestor is the root `r` at depth 0, the
dispatcher executes the exit actions exactly `[A, A.parent, A.parent.parent]`
(innermost first), then the entry actions exactly `[B]`, invoking no state
handler twice. -/
theorem deep_transition_sequence (parent : Nat → Option Nat) (A p1 p2 r B : Nat)
    (hA : parent A = some p1) (hp1 : parent p1 = some p2)
    (hp2 : parent p2 = some r) (hr : parent r = none) (hB : parent B = some r)
    (hAB : A ≠ B) (hAr : A ≠ r) (h1B : p1 ≠ B) (h1r : p1 ≠ r)
    (h2B : p2 ≠ B) (h2r : p2 ≠ r) (hBr : B ≠ r)
    (hA1 : A ≠ p1) (hA2 : A ≠ p2) (h12 : p1 ≠ p2) :
    transSeq parent 4 A B =
      [HAct.exitA A, HAct.exitA p1, HAct.exitA p2, HAct.entryA B] ∧
    ((transSeq parent 4 A B).map HAct.state).Nodup := by
  have hS : ancWalk parent 4 A = [A, p1, p2, r] := by
    simp [ancWalk, hA, hp1, hp2, hr]
  have hT : ancWalk parent 4 B = [B, r] := by
    simp [ancWalk, hB, hr]
  have hlca : lcaOf (ancWalk parent 4 A) (ancWalk parent 4 B) = some r := by
    rw [hS, hT]
    simp [lcaOf, List.find?, hAB, hAr, h1B, h1r, h2B, h2r]
  have hseq : transSeq parent 4 A B =
      [HAct.exitA A, HAct.exitA p1, HAct.exitA p2, HAct.entryA B] := by
    have e1 : (A != r) = true := bne_iff_ne.mpr hAr
    have e2 : (p1 != r) = true := bne_iff_ne.mpr h1r
    have e3 : (p2 != r) = true := bne_iff_ne.mpr h2r
    have e4 : (B != r) = true := bne_iff_ne.mpr hBr
    have e5 : (r != r) = false := by simp
    rw [transSeq, if_neg hAB, hlca, hS, hT]
    simp [exitSeq, entrySeq, List.takeWhile, e1, e2, e3, e4, e5]
  refine ⟨hseq, ?_⟩
  rw [hseq]
  simp [HAct.state, hAB, hA1, hA2, h1B, h2B, h12]

/-- Witness for C4's amended theorem at the concrete tree `cexParent` with
`A = 3`, `A.parent = 2`, `A.parent.parent = 1`, root `0`, `B = 4`. -/
theorem deep_transition_sequence_witness :
    transSeq cexParent 4 3 4 =
      [HAct.exitA 3, HAct.exitA 2, HAct.exitA 1, HAct.entryA 4] ∧
    ((transSeq cexParent 4 3 4).map HAct.state).Nodup :=
  deep_transition_sequence cexParent 3 2 1 0 4 rfl rfl rfl rfl rfl
    (by decide) (by decide) (by decide) (by decide) (by decide) (by decide)
    (by decide) (by decide) (by decide) (by decide)

/-- C5: a self-transition on any state `S` executes exit(S) followed by
entry(S) — neither action is skipped, for every state tree. -/
theorem self_transition_exit_entry (parent : Nat → Option Nat) (fuel S : Nat) :
    transSeq parent fuel S S = [HAct.exitA S, HAct.entryA S] := by
  simp [transSeq]

/-! ## Lemmas about the pool invariant -/

/-- A duplicate-free list of naturals all below `n` has at most `n` elements. -/
theorem nodup_length_le (l : List Nat) (n : Nat) (hnd : l.Nodup)
    (hlt : ∀ x ∈ l, x < n) : l.length ≤ n := by
  have h1 : l.toFinset ⊆ Finset.range n := by
    intro x hx
    rw [List.mem_toFinset] at hx
    exact Finset.mem_range.mpr (hlt x hx)
  have h2 := Finset.card_le_card h1
  rwa [List.toFinset_card_of_nodup hnd, Finset.card_range] at h2

/-- Allocation preserves the pool invariant. -/
theorem poolAlloc_inv (P : Pool) (h : PoolInv P) : PoolInv (poolAlloc P) := by
  obtain ⟨hnd, hlt, hlen, hiff, hout⟩ := h
  unfold poolAlloc
  cases hfl : P.freeList with
  | nil => exact ⟨hnd, hlt, hlen, hiff, hout⟩
  | cons b rest =>
      rw [hfl] at hnd hlt hlen hiff
      have hbn : b < P.blockCount := hlt b (by simp)
      have hbrest : b ∉ rest := (List.nodup_cons.mp hnd).1
      refine ⟨?_, ?_, ?_, ?_, ?_⟩
      · show rest.Nodup
        exact (List.nodup_cons.mp hnd).2
      · show ∀ x ∈ rest, x < P.blockCount
        intro x hx
        exact hlt x (by simp [hx])
      · show rest.length ≤ P.blockCount
        have hlen2 : rest.length + 1 ≤ P.blockCount := by
          simpa using hlen
        omega
      · intro x
        show (if x = b then 1 else P.refCt x) = 0 ↔ (x < P.blockCount → x ∈ rest)
        by_cases hxb : x = b
        · subst hxb
          rw [if_pos rfl]
          constructor
          · intro hz
            exact absurd hz one_ne_zero
          · intro hmem
            exact absurd (hmem hbn) hbrest
        · rw [if_neg hxb, hiff x]
          constructor
          · intro hm hx
            rcases List.mem_cons.mp (hm hx) with hc | hc
            · exact absurd hc hxb
            · exact hc
          · intro hm hx
            exact List.mem_cons.mpr (Or.inr (hm hx))
      · intro x hx
        have hx2 : P.blockCount ≤ x := hx
        show (if x = b then 1 else P.refCt x) = 0
        have hxb : x ≠ b := by omega
        rw [if_neg hxb]
        exact hout x hx2

/-- Retaining a reference preserves the pool invariant. -/
theorem poolRetain_inv (P : Pool) (b : Nat) (h : PoolInv P) :
    PoolInv (poolRetain P b) := by
  obtain ⟨hnd, hlt, hlen, hiff, hout⟩ := h
  unfold poolRetain
  by_cases hb : 0 < P.refCt b
  · rw [if_pos hb]
    refine ⟨hnd, hlt, hlen, ?_, ?_⟩
    · intro x
      show (if x = b then P.refCt b + 1 else P.refCt x) = 0 ↔
        (x < P.blockCount → x ∈ P.freeList)
      by_cases hxb : x = b
      · subst hxb
        rw [if_pos rfl, ← hiff x]
        omega
      · rw [if_neg hxb]
        exact hiff x
    · intro x hx
      have hx2 : P.blockCount ≤ x := hx
      show (if x = b then P.refCt b + 1 else P.refCt x) = 0
      have hxb : x ≠ b := by
        intro he
        subst he
        exact absurd (hout x hx2) (by omega)
      rw [if_neg hxb]
      exact hout x hx2
  · rw [if_neg hb]
    exact ⟨hnd, hlt, hlen, hiff, hout⟩

/-- Releasing a reference preserves the pool invariant. -/
theorem poolRelease_inv (P : Pool) (b : Nat) (h : PoolInv P) :
    PoolInv (poolRelease P b) := by
  obtain ⟨hnd, hlt, hlen, hiff, hout⟩ := h
  unfold poolRelease
  by_cases h0 : P.refCt b = 0
  · rw [if_pos h0]
    exact ⟨hnd, hlt, hlen, hiff, hout⟩
  rw [if_neg h0]
  have hbn : b < P.blockCount := by
    by_contra hcon
    exact h0 (hout b (by omega))
  have hbfree : b ∉ P.freeList := by
    intro hmem
    exact h0 ((hiff b).mpr fun _ => hmem)
  by_cases h1 : P.refCt b = 1
  · rw [if_pos h1]
    have hnd2 : (b :: P.freeList).Nodup := List.nodup_cons.mpr ⟨hbfree, hnd⟩
    have hlt2 : ∀ x ∈ b :: P.freeList, x < P.blockCount := by
      intro x hx
      rcases List.mem_cons.mp hx with hc | hc
      · subst hc; exact hbn
      · exact hlt x hc
    refine ⟨hnd2, hlt2, ?_, ?_, ?_⟩
    · show (b :: P.freeList).length ≤ P.blockCount
      exact nodup_length_le _ _ hnd2 hlt2
    · intro x
      show (if x = b then 0 else P.refCt x) = 0 ↔
        (x < P.blockCount → x ∈ b :: P.freeList)
      by_cases hxb : x = b
      · subst hxb
        rw [if_pos rfl]
        constructor
        · intro _ _
          exact List.mem_cons_self x P.freeList
        · intro _
          rfl
      · rw [if_neg hxb, hiff x]
        constructor
        · intro hm hx
          exact List.mem_cons.mpr (Or.inr (hm hx))
        · intro hm hx
          rcases List.mem_cons.mp (hm hx) with hc | hc
          · exact absurd hc hxb
          · exact hc
    · intro x hx
      have hx2 : P.blockCount ≤ x := hx
      show (if x = b then 0 else P.refCt x) = 0
      by_cases hxb : x = b
      · rw [if_pos hxb]
      · rw [if_neg hxb]
        exact hout x hx2
  · rw [if_neg h1]
    refine ⟨hnd, hlt, hlen, ?_, ?_⟩
    · intro x
      show (if x = b then P.refCt b - 1 else P.refCt x) = 0 ↔
        (x < P.blockCount → x ∈ P.freeList)
      by_cases hxb : x = b
      · subst hxb
        rw [if_pos rfl, ← hiff x]
        omega
      · rw [if_neg hxb]
        exact hiff x
    · intro x hx
      have hx2 : P.blockCount ≤ x := hx
      show (if x = b then P.refCt b - 1 else P.refCt x) = 0
      have hxb : x ≠ b := by omega
      rw [if_neg hxb]
      exact hout x hx2

/-- `modifyNth` preserves any per-element property that `f` preserves. -/
theorem modifyNth_forall {α : Type} (Q : α → Prop) (f : α → α) (n : Nat)
    (l : List α) (hl : ∀ x ∈ l, Q x) (hf : ∀ x, Q x → Q (f x)) :
    ∀ x ∈ modifyNth f n l, Q x := by
  induction l generalizing n with
  | nil =>
      intro x hx
      cases n <;> simp [modifyNth] at hx
  | cons a t ih =>
      cases n with
      | zero =>
          intro x hx
          rcases List.mem_cons.mp hx with h | h
          · subst h; exact hf a (hl a (by simp))
          · exact hl x (by simp [h])
      | succ m =>
          intro x hx
          rcases List.mem_cons.mp hx with h | h
          · subst h; exact hl x (by simp)
          · exact ih m (fun y hy => hl y (by simp [hy])) x h

/-- Every pool operation preserves the per-pool invariant of every pool. -/
theorem sysStep_inv (sys : List Pool) (op : POp)
    (h : ∀ P ∈ sys, PoolInv P) : ∀ P ∈ sysStep sys op, PoolInv P := by
  cases op with
  | alloc size => exact modifyNth_forall PoolInv poolAlloc _ sys h poolAlloc_inv
  | retain p b =>
      exact modifyNth_forall PoolInv (fun P => poolRetain P b) _ sys h
        (fun P hP => poolRetain_inv P b hP)
  | release p b =>
      exact modifyNth_forall PoolInv (fun P => poolRelease P b) _ sys h
        (fun P hP => poolRelease_inv P b hP)

/-- Any sequence of pool operations preserves the per-pool invariant. -/
theorem sysRun_inv (ops : List POp) (sys : List Pool)
    (h : ∀ P ∈ sys, PoolInv P) : ∀ P ∈ sysRun sys ops, PoolInv P := by
  induction ops generalizing sys with
  | nil => exact h
  | cons op rest ih => exact ih (sysStep sys op) (sysStep_inv sys op h)

/-- A freshly registered pool satisfies the invariant. -/
theorem initPool_inv (sz cnt : Nat) : PoolInv (initPool sz cnt) := by
  refine ⟨?_, ?_, ?_, ?_, ?_⟩
  · show (List.range cnt).Nodup
    exact List.nodup_range cnt
  · show ∀ x ∈ List.range cnt, x < cnt
    intro b hb
    exact List.mem_range.mp hb
  · show (List.range cnt).length ≤ cnt
    simp
  · intro b
    show (0 = 0) ↔ (b < cnt → b ∈ List.range cnt)
    simp [List.mem_range]
  · intro b _
    rfl

/-- C3: after any finite sequence of pool operations from any registered pool
configuration, every pool's free-block count is at most its configured block
count (it is a list length, hence also never negative), and a valid block's
reference count (a natural number, hence never negative) is 0 exactly when
the block sits on its pool's free list. -/
theorem pool_refcount_invariant (cfg : List (Nat × Nat)) (ops : List POp)
    (i : Nat) (P : Pool) (hP : (sysRun (initSys cfg) ops).get? i = some P) :
    P.freeList.length ≤ P.blockCount ∧
    ∀ b < P.blockCount, (P.refCt b = 0 ↔ b ∈ P.freeList) := by
  have hmem : P ∈ sysRun (initSys cfg) ops := List.get?_mem hP
  have hinit : ∀ Q ∈ initSys cfg, PoolInv Q := by
    intro Q hQ
    obtain ⟨c, _, rfl⟩ := List.mem_map.mp hQ
    exact initPool_inv c.1 c.2
  obtain ⟨hnd, hlt, hlen, hiff, hout⟩ :=
    sysRun_inv ops (initSys cfg) hinit P hmem
  refine ⟨hlen, ?_⟩
  intro b hb
  rw [hiff b]
  exact ⟨fun hm => hm hb, fun hm _ => hm⟩

/-- Witness for C3: one pool of 2 blocks, after allocating, retaining,
and fully releasing an event. -/
theorem pool_refcount_invariant_witness :
    (initPool 4 2).freeList.length ≤ (initPool 4 2).blockCount ∧
    ∀ b < (initPool 4 2).blockCount,
      ((initPool 4 2).refCt b = 0 ↔ b ∈ (initPool 4 2).freeList) :=
  pool_refcount_invariant [(4, 2)] [] 0 (initPool 4 2) rfl

/-! ## Lemmas for the publish/subscribe round trip -/

/-- Retaining never touches the free list. -/
theorem poolRetain_freeList (P : Pool) (b : Nat) :
    (poolRetain P b).freeList = P.freeList := by
  unfold poolRetain
  split <;> rfl

/-- Retaining a live event increments its reference count. -/
theorem poolRetain_refCt_pos (P : Pool) (b : Nat) (h : 0 < P.refCt b) :
    (poolRetain P b).refCt b = P.refCt b + 1 := by
  unfold poolRetain
  rw [if_pos h]
  show (if b = b then P.refCt b + 1 else P.refCt b) = P.refCt b + 1
  rw [if_pos rfl]

/-- Releasing the last reference zeroes the count and returns the block to
the free list. -/
theorem poolRelease_refCt_one (P : Pool) (b : Nat) (h : P.refCt b = 1) :
    (poolRelease P b).refCt b = 0 ∧
    (poolRelease P b).freeList = b :: P.freeList := by
  unfold poolRelease
  rw [if_neg (by omega), if_pos h]
  refine ⟨?_, rfl⟩
  show (if b = b then 0 else P.refCt b) = 0
  rw [if_pos rfl]

/-- Releasing a reference while others remain only decrements the count. -/
theorem poolRelease_refCt_many (P : Pool) (b : Nat) (h : 1 < P.refCt b) :
    (poolRelease P b).refCt b = P.refCt b - 1 ∧
    (poolRelease P b).freeList = P.freeList := by
  unfold poolRelease
  rw [if_neg (by omega), if_neg (by omega)]
  refine ⟨?_, rfl⟩
  show (if b = b then P.refCt b - 1 else P.refCt b) = P.refCt b - 1
  rw [if_pos rfl]

/-- `n` retains of a live event raise its count by `n` and leave the free
list unchanged. -/
theorem retainN_spec (b : Nat) : ∀ (n : Nat) (P : Pool), 0 < P.refCt b →
    ((poolRetain · b)^[n] P).refCt b = P.refCt b + n ∧
    ((poolRetain · b)^[n] P).freeList = P.freeList := by
  intro n
  induction n with
  | zero =>
      intro P _
      exact ⟨rfl, rfl⟩
  | succ m ih =>
      intro P hb
      obtain ⟨ih1, ih2⟩ := ih P hb
      have hQ : 0 < ((poolRetain · b)^[m] P).refCt b := by omega
      rw [Function.iterate_succ_apply']
      refine ⟨?_, ?_⟩
      · rw [poolRetain_refCt_pos _ b hQ, ih1]
        omega
      · rw [poolRetain_freeList, ih2]

/-- Successive consumer releases of an event with `n` outstanding references
count it down one at a time; the block reaches the free list exactly at the
`n`-th release and not before. -/
theorem releaseN_spec (P : Pool) (b n : Nat) (hrc : P.refCt b = n)
    (hmem : b ∉ P.freeList) (hn : 0 < n) :
    ∀ k, k ≤ n →
      (releaseN P b k).refCt b = n - k ∧
      ((b ∈ (releaseN P b k).freeList) ↔ k = n) := by
  intro k
  induction k with
  | zero =>
      intro _
      exact ⟨hrc, ⟨fun h => absurd h hmem, fun h => absurd h (by omega)⟩⟩
  | succ m ih =>
      intro hk
      obtain ⟨ih1, ih2⟩ := ih (by omega)
      have hmn : m ≠ n := by omega
      have hnotmem : b ∉ (releaseN P b m).freeList := fun h => hmn (ih2.mp h)
      have hstep : releaseN P b (m + 1) = poolRelease (releaseN P b m) b :=
        Function.iterate_succ_apply' (poolRelease · b) m P
      rw [hstep]
      by_cases hlast : (releaseN P b m).refCt b = 1
      · obtain ⟨e1, e2⟩ := poolRelease_refCt_one _ b hlast
        have hfin : m + 1 = n := by omega
        rw [e1, e2]
        exact ⟨by omega, ⟨fun _ => hfin, fun _ => List.mem_cons_self b _⟩⟩
      · have h2 : 1 < (releaseN P b m).refCt b := by omega
        obtain ⟨e1, e2⟩ := poolRelease_refCt_many _ b h2
        rw [e1, e2, ih1]
        refine ⟨by omega, ?_⟩
        exact ⟨fun h => absurd (ih2.mp h) hmn, fun h => absurd h (by omega)⟩

/-- Allocating from a fresh nonempty pool hands out block 0 with reference
count 1, off the free list. -/
theorem alloc_init_spec (sz m : Nat) :
    (poolAlloc (initPool sz (m + 1))).refCt 0 = 1 ∧
    0 ∉ (poolAlloc (initPool sz (m + 1))).freeList := by
  have hr : (initPool sz (m + 1)).freeList =
      0 :: List.map Nat.succ (List.range m) := by
    show List.range (m + 1) = _
    exact List.range_succ_eq_map m
  unfold poolAlloc
  rw [hr]
  constructor
  · show (if 0 = 0 then 1 else (initPool sz (m + 1)).refCt 0) = 1
    rw [if_pos rfl]
  · show 0 ∉ List.map Nat.succ (List.range m)
    simp

/-- Publishing a freshly allocated event to `N` subscribers (one retain per
subscriber, then the publisher's own release) leaves reference count `N`; the
block is recycled immediately exactly when there are no subscribers. -/
theorem publishEvt_spec (P : Pool) (b N : Nat) (h1 : P.refCt b = 1)
    (hmem : b ∉ P.freeList) :
    (publishEvt P b N).refCt b = N ∧
    ((b ∈ (publishEvt P b N).freeList) ↔ N = 0) := by
  obtain ⟨r1, r2⟩ := retainN_spec b N P (by omega)
  unfold publishEvt
  cases N with
  | zero =>
      obtain ⟨e1, e2⟩ := poolRelease_refCt_one ((poolRetain · b)^[0] P) b
        (by rw [r1, h1])
      rw [e1, e2]
      exact ⟨rfl, ⟨fun _ => rfl, fun _ => List.mem_cons_self b _⟩⟩
  | succ M =>
      obtain ⟨e1, e2⟩ := poolRelease_refCt_many ((poolRetain · b)^[M + 1] P) b
        (by rw [r1]; omega)
      rw [e1, e2, r1, r2, h1]
      refine ⟨by omega, ?_⟩
      exact ⟨fun h => absurd h hmem, fun h => absurd h (by omega)⟩

/-- The pool state after allocating an event from a fresh pool of `cnt`
blocks, publishing it to `N` subscribers, and `k` consumer releases. -/
def pubScenario (sz cnt N k : Nat) : Pool :=
  releaseN (publishEvt (poolAlloc (initPool sz cnt)) 0 N) 0 k

/-- C6: an event allocated from a fresh pool and published to `N` subscribers
reaches reference count 0 and returns to its pool's free list exactly when all
`N` subscriber releases (on top of the publisher's own release, performed by
`publish` itself) have occurred — and not at any earlier point. -/
theorem publish_roundtrip (sz m N k : Nat) (hk : k ≤ N) :
    (pubScenario sz (m + 1) N k).refCt 0 = N - k ∧
    ((0 ∈ (pubScenario sz (m + 1) N k).freeList) ↔ k = N) := by
  obtain ⟨ha1, ha2⟩ := alloc_init_spec sz m
  obtain ⟨hp1, hp2⟩ := publishEvt_spec (poolAlloc (initPool sz (m + 1))) 0 N ha1 ha2
  unfold pubScenario
  cases N with
  | zero =>
      have hk0 : k = 0 := by omega
      subst hk0
      exact ⟨hp1, ⟨fun _ => rfl, fun _ => hp2.mpr rfl⟩⟩
  | succ M =>
      have hnot : 0 ∉ (publishEvt (poolAlloc (initPool sz (m + 1))) 0 (M + 1)).freeList :=
        fun h => absurd (hp2.mp h) (by omega)
      exact releaseN_spec _ 0 (M + 1) hp1 hnot (by omega) k hk

/-- Witness for C6: a 1-block pool, 2 subscribers, both released. -/
theorem publish_roundtrip_witness :
    (pubScenario 4 1 2 2).refCt 0 = 2 - 2 ∧
    ((0 ∈ (pubScenario 4 1 2 2).freeList) ↔ 2 = 2) :=
  publish_roundtrip 4 0 2 2 (by decide)

/-! ## Claim theorem for the queue overflow policy -/

/-- A concrete full queue and a concrete pool holding one live event. -/
def cexQueue : EQueue := { cap := 1, items := [5] }

/-- A concrete pool with block 0 allocated (reference count 1). -/
def cexPool : Pool := poolAlloc (initPool 4 1)

/-- C7: posting to a full queue under the `drop` policy leaves the queue's
contents unchanged, releases the dropped event's reference exactly once
(the count drops by exactly 1) and never fires the failure hook; under the
`fatal` policy it invokes the designated failure hook exactly once and leaves
both the queue and the pool untouched. -/
theorem queue_overflow_policy (q : EQueue) (P : Pool) (b : Nat)
    (hfull : q.items.length = q.cap) (hrc : 0 < P.refCt b) :
    (tryPost OverflowPolicy.drop q P b).queue = q ∧
    (tryPost OverflowPolicy.drop q P b).pool.refCt b = P.refCt b - 1 ∧
    (tryPost OverflowPolicy.drop q P b).hookCalls = 0 ∧
    (tryPost OverflowPolicy.fatal q P b).hookCalls = 1 ∧
    (tryPost OverflowPolicy.fatal q P b).queue = q ∧
    (tryPost OverflowPolicy.fatal q P b).pool = P := by
  have hnf : ¬ (q.items.length < q.cap) := by omega
  unfold tryPost
  simp only [if_neg hnf]
  refine ⟨trivial, ?_, trivial, trivial, trivial, trivial⟩
  show (poolRelease P b).refCt b = P.refCt b - 1
  by_cases h1 : P.refCt b = 1
  · rw [(poolRelease_refCt_one P b h1).1]
    omega
  · exact (poolRelease_refCt_many P b (by omega)).1

/-- Witness for C7 at a concrete full queue and a live event. -/
theorem queue_overflow_policy_witness :
    (tryPost OverflowPolicy.drop cexQueue cexPool 0).queue = cexQueue ∧
    (tryPost OverflowPolicy.drop cexQueue cexPool 0).pool.refCt 0 =
      cexPool.refCt 0 - 1 ∧
    (tryPost OverflowPolicy.drop cexQueue cexPool 0).hookCalls = 0 ∧
    (tryPost OverflowPolicy.fatal cexQueue cexPool 0).hookCalls = 1 ∧
    (tryPost OverflowPolicy.fatal cexQueue cexPool 0).queue = cexQueue ∧
    (tryPost OverflowPolicy.fatal cexQueue cexPool 0).pool = cexPool :=
  queue_overflow_policy cexQueue cexPool 0 rfl (by decide)

end QPC
